import Mathlib

/-!
Shallow embedding of the event layout engine `calculateEventPositions`
(src/components/CustomCalendar.tsx, lines 97-286) of the PlanQ calendar
frontend, together with theorems settling the frozen claims about it.

Modelling conventions:
 - A timestamp is modelled as a natural number of milliseconds on a local
   wall-clock timeline with a fixed UTC-like offset and no DST, so the
   calendar day of an instant is `t / dayMs`, the hour of day is
   `t % dayMs / hourMs`, and the minute is `t % hourMs / minuteMs`.  This
   matches the source, which only ever compares `toDateString()` values,
   formats `yyyy-MM-dd` strings, reads `getHours()/getMinutes()`, and does
   `getTime()` arithmetic.
 - The TS `CalendarEvent.start : string` is parsed with `new Date(...)` and
   tested for presence (`!event.start`); we model it as `Option Nat`
   (`none` models a missing/null `start`).  Likewise the optional `end`.
 - JS floating-point numbers produced by the pixel projection are modelled
   as exact rationals (`Rat`); the spec states the projection over real
   arithmetic.  (JS `100 / 0` is `Infinity`; `Rat` division by zero yields
   0.  The claims about `totalColumns` all assume distinct event ids, for
   which the divisor is never 0.)
 - `Array.prototype.sort` is stable (ES2019).  We model it as the classic
   stable insertion sort driven by the source's comparator (which returns 0
   whenever either event lacks `start`): each element is inserted into the
   sorted prefix from the back, moving left past exactly the elements the
   comparator reports as greater.  For inputs on which the comparator is
   consistent (every event has a `start`) this is THE stable sort; for
   inputs containing `start = null` events the comparator is inconsistent
   and ECMAScript leaves the order implementation-defined, and this model
   coincides with the binary-insertion behaviour V8 exhibits on the small
   concrete inputs used below.
-/

namespace PlanQCalendar

/-- Milliseconds in one minute. -/
def minuteMs : Nat := 60000

/-- Milliseconds in one hour. -/
def hourMs : Nat := 3600000

/-- Milliseconds in one day. -/
def dayMs : Nat := 86400000

/-- Calendar day of an instant (models `toDateString()` and
`format(d, "yyyy-MM-dd")` equality tests). -/
def dateOf (t : Nat) : Nat := t / dayMs

/-- Hour-of-day of an instant (models `getHours()`). -/
def hoursOf (t : Nat) : Nat := t % dayMs / hourMs

/-- Minute-of-hour of an instant (models `getMinutes()`). -/
def minutesOf (t : Nat) : Nat := t % hourMs / minuteMs

/-- Minutes elapsed since midnight, as the source computes it:
`getHours() * 60 + getMinutes()` (seconds and milliseconds are dropped). -/
def minutesOfDay (t : Nat) : Nat := hoursOf t * 60 + minutesOf t

/-- Instant with time-of-day 23:59:59.999 on the calendar day of `t`
(models `const d = new Date(viewDate); d.setHours(23, 59, 59, 999)`). -/
def endOfDayMs (t : Nat) : Nat := dateOf t * dayMs + (dayMs - 1)

/-- The fields of the source's `CalendarEvent` that the layout engine reads.
`start` is `none` when the entry is malformed (`start = null`); `end_`
models the optional `end` field. -/
structure CalendarEvent where
  id : Nat
  start : Option Nat := none
  end_ : Option Nat := none
deriving DecidableEq, Repr

/-- Effective start used by the engine; only ever read on events whose
`start` is present (the engine skips the others). -/
def evStart (e : CalendarEvent) : Nat := e.start.getD 0

/-- Effective end: the parsed `end` when present, else `start` plus 30
minutes (`new Date(event.start).getTime() + 30 * 60000`). -/
def evEnd (e : CalendarEvent) : Nat :=
  match e.end_ with
  | some t => t
  | none => evStart e + 30 * minuteMs

/-- Source helper `isMultiDayEvent`: false when either timestamp is
missing, otherwise compares the calendar dates of the actual `start` and
actual `end` (`toDateString()` inequality).  Note it does NOT use the
implicit 30-minute effective end. -/
def isMultiDayEvent (e : CalendarEvent) : Bool :=
  match e.start, e.end_ with
  | some s, some t => dateOf s != dateOf t
  | _, _ => false

/-- Source helper `isContinuedFromPreviousDay`: the event is multi-day and
its start date differs from the rendered day. -/
def isContinuedFromPreviousDay (viewDate : Nat) (e : CalendarEvent) : Bool :=
  match e.start, e.end_ with
  | some s, some _ => (dateOf s != dateOf viewDate) && isMultiDayEvent e
  | _, _ => false

/-- Source helper `continuesNextDay`: the event is multi-day and its end
date differs from the rendered day. -/
def continuesNextDay (viewDate : Nat) (e : CalendarEvent) : Bool :=
  match e.start, e.end_ with
  | some _, some t => (dateOf t != dateOf viewDate) && isMultiDayEvent e
  | _, _ => false

/-- The sort comparator
`(a, b) => (!a.start || !b.start) ? 0 : Date(a.start) - Date(b.start)`. -/
def cmpStart (a b : CalendarEvent) : Int :=
  match a.start, b.start with
  | some sa, some sb => (sa : Int) - (sb : Int)
  | _, _ => 0

/-- One step of stable insertion sort on the reversed sorted prefix: walk
from the back of the prefix, moving past exactly the elements the
comparator reports strictly greater than `x`. -/
def insertRev (x : CalendarEvent) : List CalendarEvent → List CalendarEvent
  | [] => [x]
  | z :: zs => if 0 < cmpStart z x then z :: insertRev x zs else x :: z :: zs

/-- Stable sort by the source comparator (models
`events.slice().sort(...)`). -/
def sortEvents (l : List CalendarEvent) : List CalendarEvent :=
  (l.foldl (fun acc x => insertRev x acc) []).reverse

/-- Overlap test of the clustering pass: the candidate (with effective
interval `[s, e)`) overlaps some member of the working group whose `start`
is present (`eventStart < evEnd && eventEnd > evStart`). -/
def overlapsAny (s e : Nat) (group : List CalendarEvent) : Bool :=
  group.any fun ev =>
    match ev.start with
    | none => false
    | some evS => decide (s < evEnd ev) && decide (e > evS)

/-- One step of the clustering fold over the sorted list.  State is
`(closed groups, current working group)`; events without `start` are
skipped; the candidate joins the working group when it overlaps any member,
otherwise the working group is closed and a new one is opened. -/
def groupStep (st : List (List CalendarEvent) × List CalendarEvent)
    (event : CalendarEvent) : List (List CalendarEvent) × List CalendarEvent :=
  match event.start with
  | none => st
  | some s =>
    if st.2.isEmpty then (st.1, [event])
    else if overlapsAny s (evEnd event) st.2 then (st.1, st.2 ++ [event])
    else (st.1 ++ [st.2], [event])

/-- Overlap clustering (source lines 141-177): fold the sorted events and
flush the trailing working group if nonempty. -/
def groupEvents (l : List CalendarEvent) : List (List CalendarEvent) :=
  let st := l.foldl groupStep ([], [])
  if st.2.isEmpty then st.1 else st.1 ++ [st.2]

/-- An entry of the source's `layouts` array before pixel projection. -/
structure Layout where
  event : CalendarEvent
  column : Nat
  total : Nat
  isMultiDay : Bool
  continuesNextDay : Bool
  continuesFromPrevDay : Bool
deriving DecidableEq, Repr

/-- Layout entry as pushed by the packing loop (`total` starts at 0 and is
overwritten by the broadcast pass). -/
def mkLayout (viewDate : Nat) (event : CalendarEvent) (column : Nat) : Layout :=
  { event := event
    column := column
    total := 0
    isMultiDay := isMultiDayEvent event
    continuesNextDay := continuesNextDay viewDate event
    continuesFromPrevDay := isContinuedFromPreviousDay viewDate event }

/-- Index of the first column whose most recent occupant has ended by
time `t` (the `for (let i = 0; ...)` scan; columns whose stored event lacks
`start` are skipped by `continue`). -/
def findCol (t : Nat) : List CalendarEvent → Option Nat
  | [] => none
  | c :: cs =>
    if c.start.isSome then
      if evEnd c ≤ t then some 0
      else (findCol t cs).map (· + 1)
    else (findCol t cs).map (· + 1)

/-- One step of the column-packing loop.  State is `(layouts so far,
current occupant of each column)`.  An event reuses the first free column
(overwriting its occupant) or opens a new one. -/
def packGroupStep (viewDate : Nat) (st : List Layout × List CalendarEvent)
    (event : CalendarEvent) : List Layout × List CalendarEvent :=
  match event.start with
  | none => st
  | some s =>
    match findCol s st.2 with
    | some i => (st.1 ++ [mkLayout viewDate event i], st.2.set i event)
    | none => (st.1 ++ [mkLayout viewDate event st.2.length], st.2 ++ [event])

/-- Column packing of one cluster (source lines 188-235): returns the
layout entries in placement order together with the final column array. -/
def packGroup (viewDate : Nat) (group : List CalendarEvent) :
    List Layout × List CalendarEvent :=
  group.foldl (packGroupStep viewDate) ([], [])

/-- Overwrite `total` on the first layout whose event id matches (models
`layouts.find(l => l.event.id === event.id)` followed by the in-place
`layout.total = columns.length`). -/
def setTotalFirst (id : Nat) (total : Nat) : List Layout → List Layout
  | [] => []
  | l :: ls =>
    if l.event.id = id then { l with total := total } :: ls
    else l :: setTotalFirst id total ls

/-- Broadcast pass of one cluster (source lines 237-244): for every event
of the group, find its layout in the global list and set its `total`. -/
def broadcastTotals (group : List CalendarEvent) (total : Nat)
    (layouts : List Layout) : List Layout :=
  group.foldl (fun ls e => setTotalFirst e.id total ls) layouts

/-- Pack all clusters into the single global `layouts` list, running the
broadcast pass of each cluster right after packing it, exactly as the
source's `groups.forEach` does. -/
def packGroups (viewDate : Nat) (groups : List (List CalendarEvent)) :
    List Layout :=
  groups.foldl
    (fun layouts g =>
      broadcastTotals g (packGroup viewDate g).2.length
        (layouts ++ (packGroup viewDate g).1))
    []

/-- A placed rectangle of the final output (source lines 247-285). -/
structure PlacedEvent where
  event : CalendarEvent
  top : Rat
  height : Rat
  left : Rat
  width : Rat
  isMultiDay : Bool
  continuesNextDay : Bool
  continuesFromPrevDay : Bool
deriving DecidableEq, Repr

/-- Pixel projection of one layout entry.  The displayed start is clamped
to `new Date(viewDate)` itself when the event continues from a previous
day, and the displayed end to 23:59:59.999 of the view day when it
continues to the next day; minutes-of-day of the (possibly clamped)
instants then give `top` and `height`.  Returns `none` exactly when the
stored event has no `start` (the `.filter(Boolean)` of the source). -/
def projectLayout (startHour : Nat) (hourHeight : Rat) (viewDate : Nat)
    (item : Layout) : Option PlacedEvent :=
  match item.event.start with
  | none => none
  | some s =>
    let eventEnd := evEnd item.event
    let adjustedStart := if item.continuesFromPrevDay then viewDate else s
    let adjustedEnd := if item.continuesNextDay then endOfDayMs viewDate else eventEnd
    let startMinutes : Rat := (minutesOfDay adjustedStart : Nat)
    let endMinutes : Rat := (minutesOfDay adjustedEnd : Nat)
    let top := (startMinutes - (startHour : Rat) * 60) / 60 * hourHeight
    let height := (endMinutes - startMinutes) / 60 * hourHeight
    let widthPercentage := (100 : Rat) / (item.total : Rat)
    let leftPercentage := (item.column : Rat) * widthPercentage
    some
      { event := item.event
        top := top
        height := height
        left := leftPercentage
        width := widthPercentage
        isMultiDay := item.isMultiDay
        continuesNextDay := item.continuesNextDay
        continuesFromPrevDay := item.continuesFromPrevDay }

/-- The event layout engine `calculateEventPositions` (source lines
97-286): sort, cluster, pack columns, broadcast totals, project to pixels.
The `.map(...).filter(Boolean)` of the source is a `filterMap`. -/
def calculateEventPositions (events : List CalendarEvent) (startHour : Nat)
    (hourHeight : Rat) (viewDate : Nat) : List PlacedEvent :=
  if events.isEmpty then []
  else
    (packGroups viewDate (groupEvents (sortEvents events))).filterMap
      (projectLayout startHour hourHeight viewDate)

/-! Helper lemmas about the sorting pass. -/

/-- Inserting into the reversed prefix is a permutation. -/
theorem insertRev_perm (x : CalendarEvent) (l : List CalendarEvent) :
    (insertRev x l).Perm (x :: l) := by
  induction l with
  | nil => exact List.Perm.refl _
  | cons z zs ih =>
    unfold insertRev
    by_cases h : 0 < cmpStart z x
    · rw [if_pos h]
      exact (ih.cons z).trans (List.Perm.swap x z zs)
    · rw [if_neg h]

/-- Folding `insertRev` over `l` starting from `acc` yields a permutation
of `l ++ acc`. -/
theorem foldl_insertRev_perm_append (l : List CalendarEvent) :
    ∀ acc : List CalendarEvent,
      (l.foldl (fun acc x => insertRev x acc) acc).Perm (l ++ acc) := by
  induction l with
  | nil => intro acc; simp
  | cons x xs ih =>
    intro acc
    have h1 : (xs.foldl (fun acc x => insertRev x acc) (insertRev x acc)).Perm
        (xs ++ insertRev x acc) := ih (insertRev x acc)
    have h2 : (xs ++ insertRev x acc).Perm (xs ++ x :: acc) :=
      (insertRev_perm x acc).append_left xs
    have h3 : (xs ++ x :: acc).Perm (x :: (xs ++ acc)) := List.perm_middle
    simpa using (h1.trans h2).trans h3

/-- The modelled sort is a permutation of its input. -/
theorem sortEvents_perm (l : List CalendarEvent) : (sortEvents l).Perm l := by
  unfold sortEvents
  have h := foldl_insertRev_perm_append l []
  simpa using (List.reverse_perm _).trans h

/-! Helper lemmas about the clustering pass. -/

/-- One clustering step preserves the concatenation of all accumulated
events, appending the candidate exactly when its `start` is present. -/
theorem groupStep_flatten (st : List (List CalendarEvent) × List CalendarEvent)
    (e : CalendarEvent) :
    ((groupStep st e).1).flatten ++ (groupStep st e).2 =
      st.1.flatten ++ st.2 ++ (if e.start.isSome then [e] else []) := by
  unfold groupStep
  cases hs : e.start with
  | none => simp [hs]
  | some s =>
    by_cases hemp : st.2.isEmpty
    · have : st.2 = [] := List.isEmpty_iff.mp hemp
      simp [hs, hemp, this]
    · by_cases hov : overlapsAny s (evEnd e) st.2
      · simp [hs, hemp, hov]
      · simp [hs, hemp, hov, List.flatten_append]

/-- The clustering fold accumulates exactly the events whose `start` is
present, in order. -/
theorem foldl_groupStep_flatten (l : List CalendarEvent) :
    ∀ st : List (List CalendarEvent) × List CalendarEvent,
      ((l.foldl groupStep st).1).flatten ++ (l.foldl groupStep st).2 =
        st.1.flatten ++ st.2 ++ l.filter (fun e => e.start.isSome) := by
  induction l with
  | nil => intro st; simp
  | cons e es ih =>
    intro st
    rw [List.foldl_cons, ih (groupStep st e), groupStep_flatten]
    by_cases hs : e.start.isSome
    · simp [hs, List.filter_cons, List.append_assoc]
    · simp [hs, List.filter_cons]

/-- The clusters together contain exactly the input events whose `start`
is present, in order. -/
theorem groupEvents_flatten (l : List CalendarEvent) :
    (groupEvents l).flatten = l.filter (fun e => e.start.isSome) := by
  unfold groupEvents
  have h := foldl_groupStep_flatten l ([], [])
  simp only [List.flatten_nil, List.nil_append] at h
  by_cases hemp : (l.foldl groupStep ([], [])).2.isEmpty
  · have h2 : (l.foldl groupStep ([], [])).2 = [] := List.isEmpty_iff.mp hemp
    rw [h2, List.append_nil] at h
    simp [hemp, h]
  · simp [hemp, List.flatten_append, h]

/-- Every member of a cluster has a present `start`. -/
theorem mem_group_isSome {l g : List CalendarEvent} {e : CalendarEvent}
    (hg : g ∈ groupEvents l) (he : e ∈ g) : e.start.isSome = true := by
  have : e ∈ (groupEvents l).flatten := List.mem_flatten.mpr ⟨g, hg, he⟩
  rw [groupEvents_flatten] at this
  exact (List.mem_filter.mp this).2

/-- Every member of a cluster is one of the clustered events. -/
theorem mem_group_mem {l g : List CalendarEvent} {e : CalendarEvent}
    (hg : g ∈ groupEvents l) (he : e ∈ g) : e ∈ l := by
  have : e ∈ (groupEvents l).flatten := List.mem_flatten.mpr ⟨g, hg, he⟩
  rw [groupEvents_flatten] at this
  exact (List.mem_filter.mp this).1

/-! Helper lemmas about the column-packing pass. -/

/-- When `findCol` returns an index, that column's occupant has a present
`start` and has ended by time `t`. -/
theorem findCol_some {t : Nat} :
    ∀ {cols : List CalendarEvent} {i : Nat}, findCol t cols = some i →
      ∃ c, cols[i]? = some c ∧ c.start.isSome = true ∧ evEnd c ≤ t := by
  intro cols
  induction cols with
  | nil => intro i h; simp [findCol] at h
  | cons c cs ih =>
    intro i h
    unfold findCol at h
    by_cases hs : c.start.isSome
    · rw [if_pos hs] at h
      by_cases hle : evEnd c ≤ t
      · rw [if_pos hle] at h
        cases h
        exact ⟨c, by simp, hs, hle⟩
      · rw [if_neg hle] at h
        obtain ⟨j, hj, rfl⟩ := Option.map_eq_some'.mp h
        obtain ⟨c0, hc0, hc0s, hc0e⟩ := ih hj
        exact ⟨c0, by simpa using hc0, hc0s, hc0e⟩
    · rw [if_neg hs] at h
      obtain ⟨j, hj, rfl⟩ := Option.map_eq_some'.mp h
      obtain ⟨c0, hc0, hc0s, hc0e⟩ := ih hj
      exact ⟨c0, by simpa using hc0, hc0s, hc0e⟩

/-- When every column's occupant ends strictly after `t`, no column is
reusable. -/
theorem findCol_none_of {t : Nat} :
    ∀ {cols : List CalendarEvent}, (∀ c ∈ cols, t < evEnd c) →
      findCol t cols = none := by
  intro cols
  induction cols with
  | nil => intro _; rfl
  | cons c cs ih =>
    intro h
    unfold findCol
    have hnle : ¬ evEnd c ≤ t := by
      have := h c (by simp)
      omega
    have hrest : findCol t cs = none := ih fun c hc => h c (by simp [hc])
    by_cases hs : c.start.isSome
    · rw [if_pos hs, if_neg hnle, hrest]; rfl
    · rw [if_neg hs, hrest]; rfl

/-- Layouts sharing a column index are time-disjoint in placement order. -/
def colDisjoint (a b : Layout) : Prop :=
  a.column = b.column → evEnd a.event ≤ evStart b.event

/-- Invariant of the packing fold: provided every processed event has a
non-inverted effective interval, the produced layout list is pairwise
column-disjoint.  The second invariant ties every layout to the current
occupant of its column. -/
theorem pack_inv (vd : Nat) :
    ∀ (g : List CalendarEvent) (st : List Layout × List CalendarEvent),
      (∀ e ∈ g, e.start.isSome = true → evStart e ≤ evEnd e) →
      st.1.Pairwise colDisjoint →
      (∀ l ∈ st.1, ∃ c, (st.2)[l.column]? = some c ∧ evEnd l.event ≤ evEnd c) →
      ((g.foldl (packGroupStep vd) st).1).Pairwise colDisjoint := by
  intro g
  induction g with
  | nil => intro st _ hpw _; exact hpw
  | cons e es ih =>
    intro st hval hpw hocc
    rw [List.foldl_cons]
    cases hs : e.start with
    | none =>
      have hstep : packGroupStep vd st e = st := by simp [packGroupStep, hs]
      rw [hstep]
      exact ih _ (fun x hx hxs => hval x (by simp [hx]) hxs) hpw hocc
    | some s =>
      have hes : evStart e = s := by simp [evStart, hs]
      have hvalid : s ≤ evEnd e := by
        have := hval e (by simp) (by simp [hs])
        omega
      cases hf : findCol s st.2 with
      | some i =>
        obtain ⟨ci, hci, _, hcie⟩ := findCol_some hf
        have hilt : i < st.2.length := by
          have := List.getElem?_eq_some.mp hci
          exact this.1
        have hstep : packGroupStep vd st e =
            (st.1 ++ [mkLayout vd e i], st.2.set i e) := by
          simp [packGroupStep, hs, hf]
        rw [hstep]
        refine ih _ (fun x hx hxs => hval x (by simp [hx]) hxs) ?_ ?_
        · rw [List.pairwise_append]
          refine ⟨hpw, by simp [List.pairwise_iff_getElem], ?_⟩
          intro a ha b hb
          simp only [List.mem_singleton] at hb
          subst hb
          intro hcol
          simp only [mkLayout] at hcol ⊢
          obtain ⟨c, hc, hce⟩ := hocc a ha
          rw [hcol] at hc
          rw [hci] at hc
          cases hc
          rw [hes]
          omega
        · intro l hl
          rcases List.mem_append.mp hl with hl1 | hl2
          · obtain ⟨c, hc, hce⟩ := hocc l hl1
            by_cases hcol : l.column = i
            · refine ⟨e, ?_, ?_⟩
              · rw [hcol]
                simp [List.getElem?_set, hilt]
              · rw [hcol, hci] at hc
                cases hc
                omega
            · refine ⟨c, ?_, hce⟩
              rw [List.getElem?_set, if_neg (fun h => hcol h.symm)]
              exact hc
          · simp only [List.mem_singleton] at hl2
            subst hl2
            refine ⟨e, ?_, le_refl _⟩
            simp [mkLayout, List.getElem?_set, hilt]
      | none =>
        have hstep : packGroupStep vd st e =
            (st.1 ++ [mkLayout vd e st.2.length], st.2 ++ [e]) := by
          simp [packGroupStep, hs, hf]
        rw [hstep]
        refine ih _ (fun x hx hxs => hval x (by simp [hx]) hxs) ?_ ?_
        · rw [List.pairwise_append]
          refine ⟨hpw, by simp [List.pairwise_iff_getElem], ?_⟩
          intro a ha b hb
          simp only [List.mem_singleton] at hb
          subst hb
          intro hcol
          obtain ⟨c, hc, _⟩ := hocc a ha
          have : a.column < st.2.length := (List.getElem?_eq_some.mp hc).1
          simp only [mkLayout] at hcol
          omega
        · intro l hl
          rcases List.mem_append.mp hl with hl1 | hl2
          · obtain ⟨c, hc, hce⟩ := hocc l hl1
            have hlt : l.column < st.2.length := (List.getElem?_eq_some.mp hc).1
            refine ⟨c, ?_, hce⟩
            rw [List.getElem?_append]
            simp [hlt, hc]
          · simp only [List.mem_singleton] at hl2
            subst hl2
            refine ⟨e, ?_, le_refl _⟩
            simp [mkLayout, List.getElem?_append]

/-! Concrete instants and events used by the witnesses, counterexamples
and functional tests.  `dayT` is local midnight of 2023-06-02 (epoch day
19510). -/

/-- Local midnight of 2023-06-02. -/
def dayT : Nat := 19510 * dayMs

/-- Event A of the chain-overlap scenario: 09:00-10:00 on 2023-06-02. -/
def evA : CalendarEvent :=
  { id := 1, start := some (dayT + 9 * hourMs), end_ := some (dayT + 10 * hourMs) }

/-- Event B of the chain-overlap scenario: 09:30-10:30 on 2023-06-02. -/
def evB : CalendarEvent :=
  { id := 2, start := some (dayT + 9 * hourMs + 30 * minuteMs)
    end_ := some (dayT + 10 * hourMs + 30 * minuteMs) }

/-- Event C of the chain-overlap scenario: 10:15-11:00 on 2023-06-02. -/
def evC : CalendarEvent :=
  { id := 3, start := some (dayT + 10 * hourMs + 15 * minuteMs)
    end_ := some (dayT + 11 * hourMs) }

/-- C1: for every input event list (with the spec's stated input invariant
that a present `end` is not before `start`, i.e. no inverted effective
intervals), any two distinct placed events of one overlap cluster that are
assigned the same column index have non-overlapping effective intervals
under half-open semantics: the later-placed event's effective start is at
least the earlier one's effective end. -/
theorem claim1_column_events_disjoint (events : List CalendarEvent) (vd : Nat)
    (hval : ∀ e ∈ events, e.start.isSome = true → evStart e ≤ evEnd e)
    (g : List CalendarEvent) (hg : g ∈ groupEvents (sortEvents events))
    (i j : Nat) (hi : i < ((packGroup vd g).1).length)
    (hj : j < ((packGroup vd g).1).length) (hij : i < j)
    (hcol : (((packGroup vd g).1).get ⟨i, hi⟩).column =
      (((packGroup vd g).1).get ⟨j, hj⟩).column) :
    evEnd ((((packGroup vd g).1).get ⟨i, hi⟩).event) ≤
      evStart ((((packGroup vd g).1).get ⟨j, hj⟩).event) := by
  have hpw : ((packGroup vd g).1).Pairwise colDisjoint := by
    refine pack_inv vd g ([], []) ?_ List.Pairwise.nil ?_
    · intro e he hs
      exact hval e ((sortEvents_perm events).mem_iff.mp (mem_group_mem hg he)) hs
    · intro l hl
      exact absurd hl (List.not_mem_nil l)
  exact List.pairwise_iff_getElem.mp hpw i j hi hj hij hcol

/-- Witness for C1 at the concrete chain-overlap input: A and C share
column 0 of the single cluster, and indeed A's effective end (10:00) is at
most C's effective start (10:15). -/
theorem claim1_witness : evEnd evA ≤ evStart evC :=
  claim1_column_events_disjoint [evA, evB, evC] dayT (by decide)
    [evA, evB, evC] (by decide) 0 2 (by decide) (by decide) (by decide) (by decide)

/-! Helper lemmas about the totals-broadcast pass. -/

/-- Overwriting a `total` field never changes the stored events. -/
theorem setTotalFirst_map_event (id n : Nat) :
    ∀ ls : List Layout, (setTotalFirst id n ls).map (fun l => l.event) =
      ls.map (fun l => l.event) := by
  intro ls
  induction ls with
  | nil => rfl
  | cons l ls ih =>
    unfold setTotalFirst
    by_cases h : l.event.id = id
    · rw [if_pos h]; simp
    · rw [if_neg h]; simp [ih]

/-- The broadcast pass never changes the stored events. -/
theorem broadcastTotals_map_event (g : List CalendarEvent) (n : Nat) :
    ∀ ls : List Layout, (broadcastTotals g n ls).map (fun l => l.event) =
      ls.map (fun l => l.event) := by
  induction g with
  | nil => intro ls; rfl
  | cons e es ih =>
    intro ls
    unfold broadcastTotals
    rw [List.foldl_cons]
    have := ih (setTotalFirst e.id n ls)
    unfold broadcastTotals at this
    rw [this, setTotalFirst_map_event]

/-- A `setTotalFirst` passes over a prefix containing no layout with the
sought id. -/
theorem setTotalFirst_append (id n : Nat) (ls : List Layout) :
    ∀ pre : List Layout, (∀ l ∈ pre, l.event.id ≠ id) →
      setTotalFirst id n (pre ++ ls) = pre ++ setTotalFirst id n ls := by
  intro pre
  induction pre with
  | nil => intro _; rfl
  | cons p ps ih =>
    intro h
    rw [List.cons_append]
    simp only [setTotalFirst]
    rw [if_neg (h p (by simp)), ih fun l hl => h l (by simp [hl])]
    simp

/-- The broadcast pass passes over a prefix whose layouts carry none of the
group's ids. -/
theorem broadcastTotals_append (n : Nat) :
    ∀ (g : List CalendarEvent) (pre ls : List Layout),
      (∀ e ∈ g, ∀ l ∈ pre, l.event.id ≠ e.id) →
      broadcastTotals g n (pre ++ ls) = pre ++ broadcastTotals g n ls := by
  intro g
  induction g with
  | nil => intro pre ls _; rfl
  | cons e es ih =>
    intro pre ls h
    unfold broadcastTotals
    rw [List.foldl_cons, setTotalFirst_append e.id n ls pre fun l hl => h e (by simp) l hl]
    have := ih pre (setTotalFirst e.id n ls) fun x hx l hl => h x (by simp [hx]) l hl
    unfold broadcastTotals at this
    show List.foldl (fun ls e => setTotalFirst e.id n ls) (pre ++ setTotalFirst e.id n ls) es =
      pre ++ List.foldl (fun ls e => setTotalFirst e.id n ls) ls (e :: es)
    rw [List.foldl_cons]
    exact this

/-- The broadcast pass passes over a single layout whose id is not among
the group's ids. -/
theorem broadcastTotals_cons (n : Nat) :
    ∀ (g : List CalendarEvent) (x : Layout) (ls : List Layout),
      (∀ e ∈ g, x.event.id ≠ e.id) →
      broadcastTotals g n (x :: ls) = x :: broadcastTotals g n ls := by
  intro g x ls h
  have := broadcastTotals_append n g [x] ls (fun e he l hl => by
    simp only [List.mem_singleton] at hl
    subst hl
    exact h e he)
  simpa using this

/-- When the layouts mirror the group one-for-one and the group's ids are
distinct, the broadcast sets every layout's `total`. -/
theorem broadcastTotals_exact (n : Nat) :
    ∀ (g : List CalendarEvent) (gl : List Layout),
      gl.map (fun l => l.event) = g → (g.map (fun e => e.id)).Nodup →
      broadcastTotals g n gl = gl.map (fun l => { l with total := n }) := by
  intro g
  induction g with
  | nil =>
    intro gl hmap _
    have : gl = [] := by simpa using congrArg List.length hmap
    simp [this, broadcastTotals]
  | cons e es ih =>
    intro gl hmap hnd
    cases gl with
    | nil => simp at hmap
    | cons l0 gl0 =>
      simp only [List.map_cons, List.cons.injEq] at hmap
      obtain ⟨hl0, hgl0⟩ := hmap
      simp only [List.map_cons, List.nodup_cons, List.mem_map] at hnd
      obtain ⟨hid, hnd0⟩ := hnd
      unfold broadcastTotals
      rw [List.foldl_cons]
      have hset : setTotalFirst e.id n (l0 :: gl0) = { l0 with total := n } :: gl0 := by
        unfold setTotalFirst
        rw [if_pos (by rw [hl0])]
      rw [hset]
      have hcons : broadcastTotals es n ({ l0 with total := n } :: gl0) =
          { l0 with total := n } :: broadcastTotals es n gl0 := by
        refine broadcastTotals_cons n es _ gl0 ?_
        intro e0 he0
        simp only [hl0]
        intro hcontra
        exact hid ⟨e0, he0, hcontra.symm⟩
      have hrec : broadcastTotals es n gl0 = gl0.map (fun l => { l with total := n }) :=
        ih gl0 hgl0 hnd0
      show broadcastTotals es n ({ l0 with total := n } :: gl0) = _
      rw [hcons, hrec]
      simp

/-- The packing fold emits exactly one layout per processed event with a
present `start`, in order, carrying that event. -/
theorem foldl_pack_map_event (vd : Nat) :
    ∀ (g : List CalendarEvent) (st : List Layout × List CalendarEvent),
      (∀ e ∈ g, e.start.isSome = true) →
      ((g.foldl (packGroupStep vd) st).1).map (fun l => l.event) =
        (st.1).map (fun l => l.event) ++ g := by
  intro g
  induction g with
  | nil => intro st _; simp
  | cons e es ih =>
    intro st hg
    obtain ⟨s, hs⟩ := Option.isSome_iff_exists.mp (hg e (by simp))
    rw [List.foldl_cons]
    rw [ih (packGroupStep vd st e) fun x hx => hg x (by simp [hx])]
    cases hf : findCol s st.2 with
    | some i => simp [packGroupStep, hs, hf, mkLayout]
    | none => simp [packGroupStep, hs, hf, mkLayout]

/-- The layouts of one packed cluster carry exactly the cluster's events,
in order. -/
theorem packGroup_map_event (vd : Nat) (g : List CalendarEvent)
    (hg : ∀ e ∈ g, e.start.isSome = true) :
    ((packGroup vd g).1).map (fun l => l.event) = g := by
  have := foldl_pack_map_event vd g ([], []) hg
  simpa [packGroup] using this

/-- One packed cluster with its cluster-wide `total` already filled in. -/
def packGroupTotals (vd : Nat) (g : List CalendarEvent) : List Layout :=
  ((packGroup vd g).1).map (fun l => { l with total := (packGroup vd g).2.length })

/-- With globally distinct ids, packing all clusters into the single global
list with interleaved broadcasts equals packing each cluster separately
with its total filled in and concatenating. -/
theorem packGroups_eq (vd : Nat) :
    ∀ (groups : List (List CalendarEvent)) (acc : List Layout),
      (∀ g ∈ groups, ∀ e ∈ g, e.start.isSome = true) →
      ((acc.map fun l => l.event.id) ++ (groups.flatten.map fun e => e.id)).Nodup →
      groups.foldl
        (fun layouts g =>
          broadcastTotals g (packGroup vd g).2.length (layouts ++ (packGroup vd g).1))
        acc = acc ++ (groups.map (packGroupTotals vd)).flatten := by
  intro groups
  induction groups with
  | nil => intro acc _ _; simp
  | cons g gs ih =>
    intro acc hpres hnd
    have hpresg : ∀ e ∈ g, e.start.isSome = true := hpres g (by simp)
    have hmapg : ((packGroup vd g).1).map (fun l => l.event) = g :=
      packGroup_map_event vd g hpresg
    have hnd2 :
        ((acc.map fun l => l.event.id) ++
          ((g.map fun e => e.id) ++ (gs.flatten.map fun e => e.id))).Nodup := by
      simpa [List.map_append] using hnd
    rw [List.nodup_append] at hnd2
    obtain ⟨hndacc, hndrest, hdisj⟩ := hnd2
    rw [List.nodup_append] at hndrest
    obtain ⟨hndg, hndgs, hdisj2⟩ := hndrest
    rw [List.foldl_cons]
    have hskip : broadcastTotals g (packGroup vd g).2.length
        (acc ++ (packGroup vd g).1) =
        acc ++ broadcastTotals g (packGroup vd g).2.length (packGroup vd g).1 := by
      refine broadcastTotals_append _ g acc _ ?_
      intro e he l hl
      intro hcontra
      exact hdisj (List.mem_map.mpr ⟨l, hl, rfl⟩)
        (by
          apply List.mem_append.mpr
          left
          exact List.mem_map.mpr ⟨e, he, hcontra.symm⟩)
    have hexact : broadcastTotals g (packGroup vd g).2.length (packGroup vd g).1 =
        packGroupTotals vd g :=
      broadcastTotals_exact _ g _ hmapg hndg
    rw [hskip, hexact]
    have hmapt : (packGroupTotals vd g).map (fun l => l.event) = g := by
      unfold packGroupTotals
      rw [List.map_map]
      exact hmapg
    have hnd3 :
        (((acc ++ packGroupTotals vd g).map fun l => l.event.id) ++
          (gs.flatten.map fun e => e.id)).Nodup := by
      have hids : (packGroupTotals vd g).map (fun l => l.event.id) =
          g.map fun e => e.id := by
        have := congrArg (List.map fun e => e.id) hmapt
        simpa [List.map_map] using this
      rw [List.map_append, hids, List.append_assoc]
      simpa [List.map_append, List.append_assoc] using hnd
    rw [ih (acc ++ packGroupTotals vd g) (fun g0 hg0 => hpres g0 (by simp [hg0])) hnd3]
    simp

/-- C2: with pairwise-distinct event ids, every layout of a cluster
reports the same `total`, namely the number of columns opened in that
cluster (a cluster-wide constant, not a per-event requirement). -/
theorem claim2_totalColumns_cluster_constant (events : List CalendarEvent)
    (vd : Nat) (hnd : (events.map fun e => e.id).Nodup)
    (g : List CalendarEvent) (hg : g ∈ groupEvents (sortEvents events))
    (l : Layout) (hl : l ∈ packGroups vd (groupEvents (sortEvents events)))
    (he : l.event ∈ g) :
    l.total = (packGroup vd g).2.length := by
  set groups := groupEvents (sortEvents events) with hgroups
  have hpres : ∀ g0 ∈ groups, ∀ e ∈ g0, e.start.isSome = true :=
    fun g0 hg0 e he0 => mem_group_isSome hg0 he0
  have hflat : groups.flatten = (sortEvents events).filter fun e => e.start.isSome :=
    groupEvents_flatten _
  have hndflat : (groups.flatten.map fun e => e.id).Nodup := by
    rw [hflat]
    refine List.Sublist.nodup (List.Sublist.map _ (List.filter_sublist _)) ?_
    exact ((sortEvents_perm events).map fun e => e.id).nodup_iff.mpr hnd
  have heq : packGroups vd groups = (groups.map (packGroupTotals vd)).flatten := by
    have := packGroups_eq vd groups [] hpres (by simpa using hndflat)
    simpa [packGroups] using this
  rw [heq] at hl
  obtain ⟨block, hblock, hlblock⟩ := List.mem_flatten.mp hl
  obtain ⟨g0, hg0, rfl⟩ := List.mem_map.mp hblock
  obtain ⟨l0, hl0, rfl⟩ := List.mem_map.mp hlblock
  have hevg0 : l0.event ∈ g0 := by
    have := packGroup_map_event vd g0 (hpres g0 hg0)
    rw [← this]
    exact List.mem_map.mpr ⟨l0, hl0, rfl⟩
  have hgg0 : g = g0 := by
    by_contra hne
    have hpw : List.Pairwise (fun a b : List CalendarEvent =>
        (a.map fun e => e.id).Disjoint (b.map fun e => e.id)) groups := by
      have h1 : ((groups.map fun g => g.map fun e => e.id).flatten).Nodup := by
        rw [← List.map_flatten]
        exact hndflat
      have h2 := (List.nodup_flatten.mp h1).2
      exact List.pairwise_map.mp h2
    have hsym : Symmetric (fun a b : List CalendarEvent =>
        (a.map fun e => e.id).Disjoint (b.map fun e => e.id)) :=
      fun a b hab => hab.symm
    have hdisj := hpw.forall hsym hg hg0 hne
    exact hdisj (List.mem_map.mpr ⟨l0.event, he, rfl⟩)
      (List.mem_map.mpr ⟨l0.event, hevg0, rfl⟩)
  rw [hgg0]

/-- Witness for C2 at the chain-overlap input: the layout placed for event
B carries total 2, the number of columns of its (unique) cluster. -/
theorem claim2_witness :
    ({ event := evB, column := 1, total := 2, isMultiDay := false,
        continuesNextDay := false, continuesFromPrevDay := false } : Layout).total =
      (packGroup dayT [evA, evB, evC]).2.length :=
  claim2_totalColumns_cluster_constant [evA, evB, evC] dayT (by decide)
    [evA, evB, evC] (by decide) _ (by decide) (by decide)

/-- Packing all clusters emits layouts carrying exactly the concatenation
of the clusters' events, in order (no distinctness needed). -/
theorem packGroups_map_event (vd : Nat) :
    ∀ (groups : List (List CalendarEvent)) (acc : List Layout),
      (∀ g ∈ groups, ∀ e ∈ g, e.start.isSome = true) →
      (groups.foldl
        (fun layouts g =>
          broadcastTotals g (packGroup vd g).2.length (layouts ++ (packGroup vd g).1))
        acc).map (fun l => l.event) = acc.map (fun l => l.event) ++ groups.flatten := by
  intro groups
  induction groups with
  | nil => intro acc _; simp
  | cons g gs ih =>
    intro acc hpres
    rw [List.foldl_cons]
    rw [ih _ fun g0 hg0 => hpres g0 (by simp [hg0])]
    rw [broadcastTotals_map_event, List.map_append,
      packGroup_map_event vd g (hpres g (by simp))]
    simp

/-- The pixel projection succeeds on every layout whose event has a present
`start`, and returns it carrying the same event. -/
theorem filterMap_project_map_event (sh : Nat) (hh : Rat) (vd : Nat) :
    ∀ ls : List Layout, (∀ l ∈ ls, l.event.start.isSome = true) →
      (ls.filterMap (projectLayout sh hh vd)).map (fun p => p.event) =
        ls.map (fun l => l.event) := by
  intro ls
  induction ls with
  | nil => intro _; rfl
  | cons l ls ih =>
    intro h
    obtain ⟨s, hs⟩ := Option.isSome_iff_exists.mp (h l (by simp))
    rw [List.filterMap_cons]
    have hproj : projectLayout sh hh vd l = some
        { event := l.event
          top := ((minutesOfDay (if l.continuesFromPrevDay then vd else s) : Nat) -
            (sh : Rat) * 60) / 60 * hh
          height := ((minutesOfDay (if l.continuesNextDay then endOfDayMs vd
              else evEnd l.event) : Nat) -
            ((minutesOfDay (if l.continuesFromPrevDay then vd else s) : Nat) : Rat)) /
            60 * hh
          left := (l.column : Rat) * ((100 : Rat) / (l.total : Rat))
          width := (100 : Rat) / (l.total : Rat)
          isMultiDay := l.isMultiDay
          continuesNextDay := l.continuesNextDay
          continuesFromPrevDay := l.continuesFromPrevDay } := by
      simp [projectLayout, hs]
    rw [hproj]
    simp only [List.map_cons]
    rw [ih fun x hx => h x (by simp [hx])]

/-- C8 (amended): the output contains exactly one placed rectangle per
input event with a present `start` (as a multiset: the placed events are a
permutation of the start-carrying input events), an event with a missing
`start` never appears in the output, and the engine is a total function
(it never raises).  The original claim's further assertion that a missing
`start` entry cannot affect the layout of the other events is refuted by
`claim8_counterexample`. -/
theorem claim8_skip_malformed (events : List CalendarEvent) (sh : Nat)
    (hh : Rat) (vd : Nat) :
    ((calculateEventPositions events sh hh vd).map (fun p => p.event)).Perm
      (events.filter fun e => e.start.isSome) := by
  unfold calculateEventPositions
  by_cases hemp : events.isEmpty
  · have : events = [] := List.isEmpty_iff.mp hemp
    simp [hemp, this]
  · rw [if_neg hemp]
    set groups := groupEvents (sortEvents events) with hgroups
    have hpres : ∀ g ∈ groups, ∀ e ∈ g, e.start.isSome = true :=
      fun g hg e he => mem_group_isSome hg he
    have hflat : groups.flatten = (sortEvents events).filter fun e => e.start.isSome :=
      groupEvents_flatten _
    have hmaps : (packGroups vd groups).map (fun l => l.event) = groups.flatten := by
      have := packGroups_map_event vd groups [] hpres
      simpa [packGroups] using this
    have hall : ∀ l ∈ packGroups vd groups, l.event.start.isSome = true := by
      intro l hl
      have : l.event ∈ (packGroups vd groups).map (fun l => l.event) :=
        List.mem_map.mpr ⟨l, hl, rfl⟩
      rw [hmaps, hflat] at this
      exact (List.mem_filter.mp this).2
    rw [filterMap_project_map_event sh hh vd _ hall, hmaps, hflat]
    exact (sortEvents_perm events).filter _

/-- Event of the malformed-skip counterexample scenario placed at
10:00-10:30. -/
def evB8 : CalendarEvent :=
  { id := 4, start := some (dayT + 10 * hourMs)
    end_ := some (dayT + 10 * hourMs + 30 * minuteMs) }

/-- Malformed event of the counterexample scenario: its `start` is null. -/
def evN8 : CalendarEvent := { id := 5 }

/-- Event of the malformed-skip counterexample scenario placed at
09:00-11:00. -/
def evA8 : CalendarEvent :=
  { id := 6, start := some (dayT + 9 * hourMs), end_ := some (dayT + 11 * hourMs) }

/-- Counterexample to C8 as stated: inserting the `start = null` event
`evN8` between `evB8` and `evA8` changes the layout computed for the other
two events.  The null entry compares equal to everything in the sort, so
the remaining events are processed in input order `B, A` instead of sorted
order `A, B`, and event `evA8` lands in column 1 (left 50%) instead of
column 0 (left 0%). -/
theorem claim8_counterexample :
    (calculateEventPositions [evB8, evN8, evA8] 0 60 dayT).map
        (fun p => (p.event.id, p.left)) = [(4, 0), (6, 50)] ∧
      (calculateEventPositions [evB8, evA8] 0 60 dayT).map
        (fun p => (p.event.id, p.left)) = [(6, 0), (4, 50)] ∧
      ((50 : Rat) ≠ 0) := by
  refine ⟨?_, ?_, by norm_num⟩ <;>
    · simp +decide [calculateEventPositions, packGroups, broadcastTotals, setTotalFirst,
        packGroup, packGroupStep, findCol, mkLayout, groupEvents, groupStep, overlapsAny,
        sortEvents, insertRev, cmpStart, projectLayout, evEnd, evStart, isMultiDayEvent,
        continuesNextDay, isContinuedFromPreviousDay, minutesOfDay, hoursOf, minutesOf,
        dateOf, endOfDayMs, evA8, evB8, evN8, dayT, dayMs, hourMs, minuteMs]
      norm_num

/-! Helper lemmas for the identical-intervals scenario. -/

/-- Inserting never moves an element past one the comparator ties with, so
a list of events sharing one start sorts to itself. -/
theorem foldl_insertRev_const {s : Nat} :
    ∀ (l acc : List CalendarEvent), (∀ x ∈ l, x.start = some s) →
      (∀ z ∈ acc, z.start = some s) →
      l.foldl (fun acc x => insertRev x acc) acc = l.reverse ++ acc := by
  intro l
  induction l with
  | nil => intro acc _ _; simp
  | cons x xs ih =>
    intro acc hl hacc
    have hx : x.start = some s := hl x (by simp)
    have hins : insertRev x acc = x :: acc := by
      cases acc with
      | nil => rfl
      | cons z zs =>
        have hz : z.start = some s := hacc z (by simp)
        unfold insertRev
        rw [if_neg]
        simp [cmpStart, hz, hx]
    rw [List.foldl_cons, hins,
      ih (x :: acc) (fun y hy => hl y (by simp [hy]))
        (fun z hz => by
          rcases List.mem_cons.mp hz with h | h
          · rw [h]; exact hx
          · exact hacc z h)]
    simp

/-- A list of events sharing one start is already stably sorted. -/
theorem sortEvents_const {s : Nat} (l : List CalendarEvent)
    (hl : ∀ x ∈ l, x.start = some s) : sortEvents l = l := by
  unfold sortEvents
  rw [foldl_insertRev_const l [] hl (by simp)]
  simp

/-- With a common interval `[s, e)`, `s < e`, every candidate overlaps the
nonempty working group, so the clustering fold only extends it. -/
theorem foldl_groupStep_const {s e : Nat} (hse : s < e) :
    ∀ (l : List CalendarEvent) (groups : List (List CalendarEvent))
      (cur : List CalendarEvent), cur ≠ [] →
      (∀ x ∈ cur, x.start = some s ∧ x.end_ = some e) →
      (∀ x ∈ l, x.start = some s ∧ x.end_ = some e) →
      l.foldl groupStep (groups, cur) = (groups, cur ++ l) := by
  intro l
  induction l with
  | nil => intro groups cur _ _ _; simp
  | cons x xs ih =>
    intro groups cur hne hcur hl
    obtain ⟨hxs, hxe⟩ := hl x (by simp)
    have hstep : groupStep (groups, cur) x = (groups, cur ++ [x]) := by
      unfold groupStep
      rw [hxs]
      have hemp : cur.isEmpty = false := by
        cases cur with
        | nil => exact absurd rfl hne
        | cons c cs => rfl
      have hov : overlapsAny s e cur = true := by
        cases cur with
        | nil => exact absurd rfl hne
        | cons c cs =>
          obtain ⟨hcs, hce⟩ := hcur c (by simp)
          unfold overlapsAny
          rw [List.any_cons]
          have hcend : evEnd c = e := by simp [evEnd, hce]
          rw [hcs]
          simp [hcend, hse]
      simp [hemp, evEnd, hxe, hov]
    rw [List.foldl_cons, hstep,
      ih groups (cur ++ [x]) (by simp) ?_ fun y hy => hl y (by simp [hy])]
    · simp
    · intro y hy
      rcases List.mem_append.mp hy with h | h
      · exact hcur y h
      · simp only [List.mem_singleton] at h
        rw [h]
        exact ⟨hxs, hxe⟩

/-- A nonempty list of events sharing one positive-length interval forms a
single cluster. -/
theorem groupEvents_const {s e : Nat} (hse : s < e) (l : List CalendarEvent)
    (hl : ∀ x ∈ l, x.start = some s ∧ x.end_ = some e) (hne : l ≠ []) :
    groupEvents l = [l] := by
  cases l with
  | nil => exact absurd rfl hne
  | cons x xs =>
    obtain ⟨hxs, hxe⟩ := hl x (by simp)
    unfold groupEvents
    rw [List.foldl_cons]
    have hfirst : groupStep ([], []) x = ([], [x]) := by
      unfold groupStep
      rw [hxs]
      rfl
    rw [hfirst,
      foldl_groupStep_const hse xs [] [x] (by simp)
        (fun y hy => by
          simp only [List.mem_singleton] at hy
          rw [hy]
          exact ⟨hxs, hxe⟩)
        (fun y hy => hl y (by simp [hy]))]
    simp

/-- The layouts produced when every event opens a fresh column, numbered
consecutively from `n`. -/
def mkIdentLayouts (vd n : Nat) : List CalendarEvent → List Layout
  | [] => []
  | x :: xs => mkLayout vd x n :: mkIdentLayouts vd (n + 1) xs

/-- With a common interval `[s, e)`, `s < e`, no column is ever reusable,
so the packing fold opens one column per event. -/
theorem foldl_pack_const {s e : Nat} (vd : Nat) (hse : s < e) :
    ∀ (l : List CalendarEvent) (ls0 : List Layout) (cols0 : List CalendarEvent),
      (∀ x ∈ l, x.start = some s ∧ x.end_ = some e) →
      (∀ c ∈ cols0, c.end_ = some e) →
      l.foldl (packGroupStep vd) (ls0, cols0) =
        (ls0 ++ mkIdentLayouts vd cols0.length l, cols0 ++ l) := by
  intro l
  induction l with
  | nil => intro ls0 cols0 _ _; simp [mkIdentLayouts]
  | cons x xs ih =>
    intro ls0 cols0 hl hcols
    obtain ⟨hxs, hxe⟩ := hl x (by simp)
    have hnone : findCol s cols0 = none := by
      refine findCol_none_of ?_
      intro c hc
      have : evEnd c = e := by simp [evEnd, hcols c hc]
      omega
    have hstep : packGroupStep vd (ls0, cols0) x =
        (ls0 ++ [mkLayout vd x cols0.length], cols0 ++ [x]) := by
      simp [packGroupStep, hxs, hnone]
    rw [List.foldl_cons, hstep,
      ih (ls0 ++ [mkLayout vd x cols0.length]) (cols0 ++ [x])
        (fun y hy => hl y (by simp [hy]))
        (fun c hc => by
          rcases List.mem_append.mp hc with h | h
          · exact hcols c h
          · simp only [List.mem_singleton] at h
            rw [h]
            exact hxe)]
    simp [mkIdentLayouts]

/-- The fresh-column layouts carry exactly the packed events. -/
theorem mkIdentLayouts_map_event (vd : Nat) :
    ∀ (l : List CalendarEvent) (n : Nat),
      (mkIdentLayouts vd n l).map (fun x => x.event) = l := by
  intro l
  induction l with
  | nil => intro n; rfl
  | cons x xs ih => intro n; simp [mkIdentLayouts, mkLayout, ih]

/-- Pointwise description of the fresh-column layouts. -/
theorem mkIdentLayouts_getElem (vd : Nat) :
    ∀ (l : List CalendarEvent) (n k : Nat),
      (mkIdentLayouts vd n l)[k]? = (l[k]?).map fun x => mkLayout vd x (n + k) := by
  intro l
  induction l with
  | nil => intro n k; simp [mkIdentLayouts]
  | cons x xs ih =>
    intro n k
    cases k with
    | zero => simp [mkIdentLayouts]
    | succ k =>
      simp only [mkIdentLayouts, List.getElem?_cons_succ]
      rw [ih (n + 1) k]
      have : n + 1 + k = n + (k + 1) := by omega
      rw [this]

/-- C9: a nonempty family of events with pairwise-distinct ids and one
common positive-length effective interval forms a single cluster, each
event is assigned its own column in input order (stable tie-breaking), and
every one of them reports `total` equal to the family size. -/
theorem claim9_identical_intervals (ids : List Nat) (s e vd : Nat)
    (evs : List CalendarEvent)
    (hevs : evs = ids.map fun i => { id := i, start := some s, end_ := some e })
    (hne : ids ≠ []) (hnd : ids.Nodup) (hse : s < e) :
    groupEvents (sortEvents evs) = [evs] ∧
      ∀ k : Nat,
        ((packGroups vd (groupEvents (sortEvents evs))).map
          (fun l => (l.event.id, l.column, l.total)))[k]? =
          (ids[k]?).map fun i => (i, k, ids.length) := by
  have hconst : ∀ x ∈ evs, x.start = some s ∧ x.end_ = some e := by
    intro x hx
    rw [hevs] at hx
    obtain ⟨i, _, rfl⟩ := List.mem_map.mp hx
    exact ⟨rfl, rfl⟩
  have hnee : evs ≠ [] := by
    rw [hevs]
    simpa using hne
  have hsort : sortEvents evs = evs := sortEvents_const evs fun x hx => (hconst x hx).1
  have hgroup : groupEvents (sortEvents evs) = [evs] := by
    rw [hsort]
    exact groupEvents_const hse evs hconst hnee
  refine ⟨hgroup, ?_⟩
  intro k
  have hpack : packGroup vd evs = (mkIdentLayouts vd 0 evs, evs) := by
    have := foldl_pack_const vd hse evs [] [] hconst (by simp)
    simpa [packGroup] using this
  have hids : evs.map (fun x => x.id) = ids := by
    rw [hevs, List.map_map]
    exact List.map_id' ids
  have hlen : evs.length = ids.length := by
    rw [hevs]
    simp
  have hbroadcast : packGroups vd [evs] =
      (mkIdentLayouts vd 0 evs).map fun l => { l with total := ids.length } := by
    unfold packGroups
    rw [List.foldl_cons]
    simp only [List.foldl_nil, List.nil_append]
    rw [hpack]
    rw [← hlen]
    exact broadcastTotals_exact evs.length evs (mkIdentLayouts vd 0 evs)
      (mkIdentLayouts_map_event vd evs 0) (by rw [hids]; exact hnd)
  rw [hgroup, hbroadcast]
  rw [List.getElem?_map, List.getElem?_map, mkIdentLayouts_getElem vd evs 0 k]
  rw [hevs, List.getElem?_map]
  cases hk : ids[k]? with
  | none => rfl
  | some i => simp [mkLayout, hlen]

/-- Witness for C9 at three identical 09:00-10:00 events with ids 7, 8, 9:
the second layout is event 8 in column 1 with total 3. -/
theorem claim9_witness :
    ((packGroups 0 (groupEvents (sortEvents ([7, 8, 9].map fun i =>
        ({ id := i, start := some (9 * hourMs)
           end_ := some (10 * hourMs) } : CalendarEvent))))).map
      (fun l => (l.event.id, l.column, l.total)))[1]? = some (8, 1, 3) := by
  have h := claim9_identical_intervals [7, 8, 9] (9 * hourMs) (10 * hourMs) 0
    ([7, 8, 9].map fun i =>
      ({ id := i, start := some (9 * hourMs), end_ := some (10 * hourMs) } : CalendarEvent))
    rfl (by decide) (by decide) (by decide)
  exact h.2 1

/-- C3: the chain-overlap scenario A[09:00-10:00], B[09:30-10:30],
C[10:15-11:00] forms a single cluster (A-C linked transitively through B);
A gets column 0, B column 1, C reuses column 0 (A ends 10:00 before C
starts 10:15), and all three report `total = 2`. -/
theorem claim3_partial_chain_overlap :
    groupEvents (sortEvents [evA, evB, evC]) = [[evA, evB, evC]] ∧
      (packGroups dayT (groupEvents (sortEvents [evA, evB, evC]))).map
        (fun l => (l.event.id, l.column, l.total)) =
        [(1, 0, 2), (2, 1, 2), (3, 0, 2)] := by
  decide

/-- Event of the multi-day clamping scenario: 2023-06-01T22:00 to
2023-06-03T02:00. -/
def ev4 : CalendarEvent :=
  { id := 10, start := some (dayT - 2 * hourMs)
    end_ := some (dayT + dayMs + 2 * hourMs) }

/-- Counterexample to C4 as stated: for the event spanning
2023-06-01T22:00 to 2023-06-03T02:00 rendered on 2023-06-02 with
`hourHeightPx = 60`, the computed height is 1439 pixels, not the full
configured day height 24 * 60 = 1440, because the displayed end
23:59:59.999 contributes only 23 * 60 + 59 = 1439 whole minutes. -/
theorem claim4_counterexample :
    (calculateEventPositions [ev4] 0 60 dayT).map (fun p => p.height) = [1439] ∧
      (1439 : Rat) ≠ 24 * 60 := by
  constructor
  · simp +decide [calculateEventPositions, packGroups, broadcastTotals, setTotalFirst,
      packGroup, packGroupStep, findCol, mkLayout, groupEvents, groupStep, overlapsAny,
      sortEvents, insertRev, cmpStart, projectLayout, evEnd, evStart, isMultiDayEvent,
      continuesNextDay, isContinuedFromPreviousDay, minutesOfDay, hoursOf, minutesOf,
      dateOf, endOfDayMs, ev4, dayT, dayMs, hourMs, minuteMs]
  · norm_num

/-- C4 (amended): the event spanning 2023-06-01T22:00 to 2023-06-03T02:00
rendered on `viewDay` 2023-06-02 continues from the previous day and to
the next day, its displayed start is clamped to the view day's midnight
instant and its displayed end to 23:59:59.999 of the view day, giving
`top = 0` and `height = 1439` pixels with `hourHeightPx = 60` (one
hourHeightPx/60 short of the full day height, since minutes-of-day of
23:59:59.999 is 1439). -/
theorem claim4_multiday_clamping :
    calculateEventPositions [ev4] 0 60 dayT =
      [{ event := ev4, top := 0, height := 1439, left := 0, width := 100,
         isMultiDay := true, continuesNextDay := true,
         continuesFromPrevDay := true }] := by
  simp +decide [calculateEventPositions, packGroups, broadcastTotals, setTotalFirst,
    packGroup, packGroupStep, findCol, mkLayout, groupEvents, groupStep, overlapsAny,
    sortEvents, insertRev, cmpStart, projectLayout, evEnd, evStart, isMultiDayEvent,
    continuesNextDay, isContinuedFromPreviousDay, minutesOfDay, hoursOf, minutesOf,
    dateOf, endOfDayMs, ev4, dayT, dayMs, hourMs, minuteMs]

/-- C5: every placed event's `top` and `height` follow the pixel
projection formulas over the (possibly clamped) displayed start and end:
`top = (displayedStartMinutes - startHour * 60) / 60 * hourHeightPx` and
`height = (displayedEndMinutes - displayedStartMinutes) / 60 *
hourHeightPx`, where the displayed start is the view-day instant when the
event continues from a previous day and the displayed end is 23:59:59.999
of the view day when it continues to the next day. -/
theorem claim5_pixel_projection (events : List CalendarEvent) (sh : Nat)
    (hh : Rat) (vd : Nat) (p : PlacedEvent)
    (hp : p ∈ calculateEventPositions events sh hh vd) :
    ∃ s, p.event.start = some s ∧
      p.top = (((minutesOfDay (if p.continuesFromPrevDay then vd else s) : Nat) : Rat) -
        (sh : Rat) * 60) / 60 * hh ∧
      p.height = (((minutesOfDay (if p.continuesNextDay then endOfDayMs vd
          else evEnd p.event) : Nat) : Rat) -
        ((minutesOfDay (if p.continuesFromPrevDay then vd else s) : Nat) : Rat)) /
          60 * hh := by
  unfold calculateEventPositions at hp
  by_cases hemp : events.isEmpty
  · rw [if_pos hemp] at hp
    exact absurd hp (List.not_mem_nil p)
  · rw [if_neg hemp] at hp
    obtain ⟨item, _, hproj⟩ := List.mem_filterMap.mp hp
    cases hs : item.event.start with
    | none => simp [projectLayout, hs] at hproj
    | some s =>
      simp only [projectLayout, hs, Option.some.injEq] at hproj
      subst hproj
      exact ⟨s, hs, rfl, rfl⟩

/-- Event of the pixel-projection scenario: 10:00-11:30 on 2023-06-02. -/
def ev5 : CalendarEvent :=
  { id := 14, start := some (dayT + 10 * hourMs)
    end_ := some (dayT + 11 * hourMs + 30 * minuteMs) }

/-- Placed rectangle the engine computes for `ev5` with `startHour = 0`
and `hourHeightPx = 60`: `top = 600`, `height = 90`. -/
def placed5 : PlacedEvent :=
  { event := ev5, top := 600, height := 90, left := 0, width := 100,
    isMultiDay := false, continuesNextDay := false, continuesFromPrevDay := false }

/-- Witness for C5 at the concrete event 10:00-11:30 with `startHour = 0`,
`hourHeightPx = 60`: the placed rectangle has `top = 600`, `height = 90`,
and satisfies the projection formulas. -/
theorem claim5_witness :
    placed5 ∈ calculateEventPositions [ev5] 0 60 dayT ∧
      ∃ s, placed5.event.start = some s ∧
        placed5.top =
          (((minutesOfDay (if placed5.continuesFromPrevDay then dayT else s) : Nat) :
            Rat) - ((0 : Nat) : Rat) * 60) / 60 * 60 ∧
        placed5.height =
          (((minutesOfDay (if placed5.continuesNextDay then endOfDayMs dayT
              else evEnd placed5.event) : Nat) : Rat) -
            ((minutesOfDay (if placed5.continuesFromPrevDay then dayT else s) : Nat) :
              Rat)) / 60 * 60 := by
  have hlist : calculateEventPositions [ev5] 0 60 dayT = [placed5] := by
    simp +decide [calculateEventPositions, packGroups, broadcastTotals, setTotalFirst,
      packGroup, packGroupStep, findCol, mkLayout, groupEvents, groupStep, overlapsAny,
      sortEvents, insertRev, cmpStart, projectLayout, evEnd, evStart, isMultiDayEvent,
      continuesNextDay, isContinuedFromPreviousDay, minutesOfDay, hoursOf, minutesOf,
      dateOf, endOfDayMs, ev5, placed5, dayT, dayMs, hourMs, minuteMs]
    norm_num
  have hmem : placed5 ∈ calculateEventPositions [ev5] 0 60 dayT := by
    rw [hlist]
    simp
  exact ⟨hmem, claim5_pixel_projection [ev5] 0 60 dayT placed5 hmem⟩

/-- Event of the implicit-duration scenario: starts 2023-06-02T23:45 and
has no `end`; its implicit 30-minute effective interval crosses
midnight. -/
def ev6 : CalendarEvent :=
  { id := 11, start := some (dayT + 23 * hourMs + 45 * minuteMs) }

/-- Counterexample to C6 as stated: `ev6` has no `end`, its effective end
defaults to start + 30 minutes and lies on the NEXT calendar day, yet
`isMultiDayEvent` reports `false` (the source helper returns `false`
whenever `end` is absent instead of comparing effective dates), and the
placed rectangle carries `isMultiDay = false`. -/
theorem claim6_counterexample :
    evEnd ev6 = evStart ev6 + 30 * minuteMs ∧
      dateOf (evStart ev6) ≠ dateOf (evEnd ev6) ∧
      isMultiDayEvent ev6 = false ∧
      (calculateEventPositions [ev6] 0 60 dayT).map (fun p => p.isMultiDay) =
        [false] := by
  refine ⟨by decide, by decide, by decide, ?_⟩
  simp +decide [calculateEventPositions, packGroups, broadcastTotals, setTotalFirst,
    packGroup, packGroupStep, findCol, mkLayout, groupEvents, groupStep, overlapsAny,
    sortEvents, insertRev, cmpStart, projectLayout, evEnd, evStart, isMultiDayEvent,
    continuesNextDay, isContinuedFromPreviousDay, minutesOfDay, hoursOf, minutesOf,
    dateOf, endOfDayMs, ev6, dayT, dayMs, hourMs, minuteMs]

/-- C6 (amended): the effective interval defaults a missing `end` to
start + 30 minutes, but the `isMultiDay` flag does NOT use the effective
end: it is `false` whenever `end` is absent (even when the implicit
interval crosses midnight), and only when `end` is present does it compare
the calendar dates of the actual start and actual end. -/
theorem claim6_effective_end_and_multiday (x : CalendarEvent) (s : Nat)
    (hs : x.start = some s) :
    (x.end_ = none → evEnd x = s + 30 * minuteMs ∧ isMultiDayEvent x = false) ∧
      (∀ t, x.end_ = some t → (isMultiDayEvent x = true ↔ dateOf s ≠ dateOf t)) := by
  constructor
  · intro hn
    constructor
    · simp [evEnd, hn, evStart, hs]
    · simp [isMultiDayEvent, hs, hn]
  · intro t ht
    unfold isMultiDayEvent
    rw [hs, ht]
    simp

/-- Witness for C6 (amended) at `ev6`: the effective end is start + 30
minutes and the multi-day flag is false. -/
theorem claim6_witness :
    evEnd ev6 = dayT + 23 * hourMs + 45 * minuteMs + 30 * minuteMs ∧
      isMultiDayEvent ev6 = false :=
  (claim6_effective_end_and_multiday ev6 (dayT + 23 * hourMs + 45 * minuteMs)
    rfl).1 rfl

/-- C7: touching intervals are adjacent, not overlapping.  For two events
where the first's effective end equals the second's effective start (and
no third event bridges them), the overlap test is false so the clustering
pass puts them in separate clusters; and inside a cluster, a column whose
last event's effective end equals the candidate's effective start is
immediately reused (the packing comparison is non-strict). -/
theorem claim7_touching_adjacent :
    (∀ (a b : CalendarEvent) (sa sb : Nat), a.start = some sa →
      b.start = some sb → evEnd a = sb → sa ≤ sb →
      overlapsAny sb (evEnd b) [a] = false ∧
        groupEvents (sortEvents [a, b]) = [[a], [b]]) ∧
      ∀ (c : CalendarEvent) (cs : List CalendarEvent) (t : Nat),
        c.start.isSome = true → evEnd c = t → findCol t (c :: cs) = some 0 := by
  constructor
  · intro a b sa sb ha hb hend hle
    have hover : overlapsAny sb (evEnd b) [a] = false := by
      unfold overlapsAny
      rw [List.any_cons, List.any_nil, ha, hend]
      simp
    refine ⟨hover, ?_⟩
    have hsort : sortEvents [a, b] = [a, b] := by
      unfold sortEvents
      simp only [List.foldl_cons, List.foldl_nil]
      have h1 : insertRev a [] = [a] := rfl
      have h2 : insertRev b [a] = [b, a] := by
        unfold insertRev
        rw [if_neg]
        simp only [cmpStart, ha, hb]
        omega
      rw [h1, h2]
      rfl
    rw [hsort]
    unfold groupEvents
    simp only [List.foldl_cons, List.foldl_nil]
    have g1 : groupStep ([], []) a = ([], [a]) := by
      unfold groupStep
      rw [ha]
      rfl
    have g2 : groupStep ([], [a]) b = ([[a]], [b]) := by
      unfold groupStep
      rw [hb]
      simp [hover]
    rw [g1, g2]
    rfl
  · intro c cs t hcs hce
    unfold findCol
    rw [if_pos hcs, if_pos (le_of_eq hce)]

/-- Touching-intervals event ending exactly when `evT2` starts. -/
def evT1 : CalendarEvent :=
  { id := 12, start := some (dayT + 9 * hourMs), end_ := some (dayT + 10 * hourMs) }

/-- Touching-intervals event starting exactly when `evT1` ends. -/
def evT2 : CalendarEvent :=
  { id := 13, start := some (dayT + 10 * hourMs), end_ := some (dayT + 11 * hourMs) }

/-- Witness for C7 at the touching pair 09:00-10:00 and 10:00-11:00: no
overlap, two separate clusters, and the column holding the first event is
immediately reusable at 10:00. -/
theorem claim7_witness :
    (overlapsAny (dayT + 10 * hourMs) (evEnd evT2) [evT1] = false ∧
      groupEvents (sortEvents [evT1, evT2]) = [[evT1], [evT2]]) ∧
      findCol (dayT + 10 * hourMs) [evT1] = some 0 :=
  ⟨claim7_touching_adjacent.1 evT1 evT2 (dayT + 9 * hourMs) (dayT + 10 * hourMs)
      rfl rfl rfl (by omega),
    claim7_touching_adjacent.2 evT1 [] (dayT + 10 * hourMs) rfl rfl⟩

/-- C10: the engine is deterministic: two calls with identical inputs
(same event list, startHour, hourHeightPx, viewDay) produce identical
outputs.  The embedding is a pure function of exactly these four
arguments, mirroring the source, which reads no ambient clock, performs no
I/O and touches no state outside its own locals. -/
theorem claim10_deterministic (e1 e2 : List CalendarEvent) (s1 s2 : Nat)
    (h1 h2 : Rat) (v1 v2 : Nat) (he : e1 = e2) (hs : s1 = s2) (hh : h1 = h2)
    (hv : v1 = v2) :
    calculateEventPositions e1 s1 h1 v1 = calculateEventPositions e2 s2 h2 v2 := by
  rw [he, hs, hh, hv]

/-- Witness for C10 at a concrete repeated call. -/
theorem claim10_witness :
    calculateEventPositions [evA, evB] 0 60 dayT =
      calculateEventPositions [evA, evB] 0 60 dayT :=
  claim10_deterministic [evA, evB] [evA, evB] 0 0 60 60 dayT dayT rfl rfl rfl rfl

end PlanQCalendar
